import Mathlib

/-!
Verification of the resident-scheduler core (`src/resident_scheduler/scheduler.py`,
`src/base/shift.py`, `src/base/objects.py`) against its natural-language
specification.

The Python code is shallowly embedded:
* calendar dates are proleptic-Gregorian ordinals (`Nat`, as returned by
  Python's `date.toordinal`); `date.weekday()` of ordinal `n` is `(n + 6) % 7`
  because ordinal 1 is a Monday;
* Python dictionaries built by insert/overwrite loops are modelled as
  association lists with CPython's insertion-order semantics (`dictInsert`,
  `dictLookup`);
* the CP-SAT backend is a black box: a constraint generated by
  `model.Add(<linear expression> <cmp> <bound>)` is recorded as a `LinCon`
  (a list of `(variable key, coefficient)` terms, a comparison and a bound),
  and a candidate solver output is a boolean valuation of the variable keys.
-/

namespace RSched

/-- `base.objects.PGYLevel`. -/
inductive PGYLevel where
  | pgy1
  | pgy2
  | pgy3
deriving DecidableEq, Repr

/-- `base.objects.ServiceType` (values ED / Off-Service / Vacation / Peds). -/
inductive ServiceType where
  | ed
  | offService
  | vacation
  | peds
deriving DecidableEq, Repr

/-- `base.objects.Team` (values R / G / I / E / B / P). -/
inductive Team where
  | red
  | green
  | intern
  | eval
  | blue
  | peds
deriving DecidableEq, Repr

/-- `base.objects.DayOfWeek`. -/
inductive DayOfWeek where
  | monday
  | tuesday
  | wednesday
  | thursday
  | friday
  | saturday
  | sunday
deriving DecidableEq, Repr

/-- `base.objects.Hospital` (frozen dataclass with a single `name` field). -/
structure Hospital where
  name : String
deriving DecidableEq, Repr

/-- `base.objects.HospitalSystem`. -/
structure HospitalSystem where
  name : String
  hospitals : List Hospital
deriving DecidableEq, Repr

/-- `base.objects.Resident` (frozen dataclass).  Dates are ordinals. -/
structure Resident where
  name : String
  pgy_level : PGYLevel
  service_type : ServiceType
  hours_goal : Nat
  requests_off : List Nat := []
  current_hours : Nat := 0
deriving DecidableEq, Repr

/-- `base.shift.ShiftTemplate` (frozen dataclass).  The scheduler only ever
reads `start_time.hour`, so the start time is kept as its hour. -/
structure ShiftTemplate where
  hospital : Hospital
  team : Team
  start_hour : Nat
  day_of_week : DayOfWeek
  code : String
  is_mandatory : Bool := true
deriving DecidableEq, Repr

/-- `base.shift.Shift` (frozen dataclass): a dated instance of a template. -/
structure Shift where
  template : ShiftTemplate
  date : Nat
  code : String
deriving DecidableEq, Repr

/-- `Shift.hospital` delegating property. -/
def Shift.hospital (s : Shift) : Hospital := s.template.hospital

/-- `Shift.team` delegating property. -/
def Shift.team (s : Shift) : Team := s.template.team

/-- `Shift.start_time.hour` delegating property. -/
def Shift.start_hour (s : Shift) : Nat := s.template.start_hour

/-- `Shift.is_mandatory` delegating property. -/
def Shift.is_mandatory (s : Shift) : Bool := s.template.is_mandatory

/-- `ShiftTemplate.duration` from `base/shift.py`: the returned
`get_duration` function, translated clause by clause. -/
def ShiftTemplate.duration (t : ShiftTemplate) (level : PGYLevel) : Nat :=
  if t.code = "m-L-I-14-W" then 5
  else if t.code = "m-L-B-14-W" then 9
  else if t.team = Team.peds then 10
  else if t.team = Team.eval then 10
  else if level = PGYLevel.pgy1 then 12
  else 10

/-- `Shift.duration` delegating property. -/
def Shift.duration (s : Shift) (level : PGYLevel) : Nat := s.template.duration level

/-- Zero-padded two-digit rendering of an hour, as Python's `f"{h:02d}"`
produces for the (two-digit-at-most) hours that occur here. -/
def pad2 (n : Nat) : List Char :=
  if n < 10 then ['0', Nat.digitChar n]
  else [Nat.digitChar (n / 10), Nat.digitChar (n % 10)]

/-- Python's `int(s)` restricted to the plain decimal strings this code
feeds it: all-digit, non-empty; anything else raises `ValueError` (`none`). -/
def parseDecimal (cs : List Char) : Option Nat :=
  if cs ≠ [] ∧ cs.all Char.isDigit then
    some (cs.foldl (fun acc c => 10 * acc + (c.toNat - '0'.toNat)) 0)
  else none

/-- `base.shift.convert_old_to_new_code`, on the code's character list
(Python string slicing becomes `List Char` slicing).  Python's
`ValueError`s become `Except.error`. -/
def convertOldToNewChars (old : List Char) : Except String (List Char) :=
  let is_opt := old.head? = some '(' ∧ old.getLast? = some ')'
  let optional_mark : List Char := if is_opt then ['o'] else ['m']
  let code := if is_opt then (old.drop 1).dropLast else old
  if code = ['L', 'I', 'd', 'w'] then
    Except.ok (optional_mark ++ "-L-I-14-W".data)
  else if code = ['L', 'B', '1', '1', 'w'] then
    Except.ok (optional_mark ++ "-L-B-14-W".data)
  else if code.length < 4 then Except.error "Invalid shift code format"
  else
    let hospital := code.take 1
    let team := (code.drop 1).take 1
    let time_spec := (code.drop 2).dropLast
    let day := (code.drop (code.length - 1)).map Char.toUpper
    let start_time? : Except String (List Char) :=
      if time_spec = ['d'] then Except.ok ['0', '7']
      else if time_spec = ['n'] then Except.ok ['1', '9']
      else
        match parseDecimal time_spec with
        | none => Except.error "invalid literal for int()"
        | some hour =>
            if hour = 7 ∨ hour = 9 ∨ hour = 11 then Except.ok (pad2 hour)
            else Except.ok (pad2 (hour % 12 + 12))
    match start_time? with
    | Except.error e => Except.error e
    | Except.ok start_time =>
        Except.ok (optional_mark ++ ['-'] ++ hospital ++ ['-'] ++ team ++
          ['-'] ++ start_time ++ ['-'] ++ day)

/-- `base.shift.convert_old_to_new_code` on `String`s. -/
def convert_old_to_new_code (old_code : String) : Except String String :=
  match convertOldToNewChars old_code.data with
  | Except.error e => Except.error e
  | Except.ok cs => Except.ok (String.mk cs)

/-- CPython `d[k] = v` on an insertion-ordered dictionary rendered as an
association list: overwrite in place, else append at the end. -/
def dictInsert [DecidableEq κ] (k : κ) (v : β) : List (κ × β) → List (κ × β)
  | [] => [(k, v)]
  | (k', v') :: rest =>
      if k' = k then (k, v) :: rest else (k', v') :: dictInsert k v rest

/-- CPython `d.get(k)` on an association list built by `dictInsert`. -/
def dictLookup [DecidableEq κ] (k : κ) : List (κ × β) → Option β
  | [] => none
  | (k', v) :: rest => if k' = k then some v else dictLookup k rest

/-- The body of a dictionary-filling loop that inserts `a ↦ v` when
`g a = some v` and leaves the dictionary unchanged otherwise. -/
def insertOptStep [DecidableEq α] (g : α → Option β) (acc : List (α × β))
    (a : α) : List (α × β) :=
  match g a with
  | some r => dictInsert a r acc
  | none => acc

/-- The distinct elements of a list in first-occurrence order: the key order
of a CPython dictionary populated by iterating the list. -/
def dedupFirst [DecidableEq α] : List α → List α
  | [] => []
  | a :: rest => a :: (dedupFirst rest).filter (fun b => ¬ b = a)

/-- `date.weekday()` of a proleptic ordinal (ordinal 1 is a Monday). -/
def weekday (d : Nat) : Nat := (d + 6) % 7

/-- `day - timedelta(days=day.weekday())` from the weekly groupings. -/
def weekStart (d : Nat) : Nat := d - weekday d

/-- Key of one CP-SAT boolean assignment variable: `(day, shift, resident)`. -/
abbrev AKey := Nat × Shift × Resident

/-- A candidate valuation of the assignment variables, as produced by the
CP-SAT backend: the boolean solved for each `(day, shift, resident)` key. -/
abbrev Valuation := Nat → Shift → Resident → Bool

/-- Value of a variable key under a valuation. -/
def keyVal (x : Valuation) (k : AKey) : Bool := x k.1 k.2.1 k.2.2

/-- Comparison operator of one `model.Add(...)` call. -/
inductive Rel where
  | eq
  | le
  | ge
deriving DecidableEq, Repr

/-- One generated linear constraint `Σ coeff·var <rel> bound` over the
assignment variables. -/
structure LinCon where
  terms : List (AKey × Nat)
  rel : Rel
  bound : Nat
deriving DecidableEq, Repr

/-- Left-hand side value of a constraint under a valuation. -/
def LinCon.lhs (c : LinCon) (x : Valuation) : Nat :=
  (c.terms.map (fun t => t.2 * (if keyVal x t.1 then 1 else 0))).sum

/-- Whether a valuation satisfies one constraint. -/
def LinCon.holds (c : LinCon) (x : Valuation) : Bool :=
  match c.rel with
  | Rel.eq => c.lhs x == c.bound
  | Rel.le => decide (c.lhs x ≤ c.bound)
  | Rel.ge => decide (c.bound ≤ c.lhs x)

/-- A valuation is feasible for a constraint list when it satisfies every
constraint in it. -/
def Sat (cs : List LinCon) (x : Valuation) : Prop :=
  ∀ c ∈ cs, c.holds x = true

instance (cs : List LinCon) (x : Valuation) : Decidable (Sat cs x) :=
  List.decidableBAll _ cs

/-- `resident_scheduler.scheduler.ScheduleModel` inputs (dates as ordinals). -/
structure ScheduleModel where
  residents : List Resident
  shifts : List Shift
  days : List Nat
  hospital_system : HospitalSystem
deriving Repr

/-- One entry of `residents_by_pgy` from `_create_lookup_maps`. -/
def ScheduleModel.residents_by_pgy (m : ScheduleModel) (p : PGYLevel) : List Resident :=
  m.residents.filter (fun r => r.pgy_level = p)

/-- One entry of `shifts_by_day` from `_create_lookup_maps` (the dictionary
has a key for every `day ∈ days`; this is its value there). -/
def ScheduleModel.shifts_by_day (m : ScheduleModel) (d : Nat) : List Shift :=
  m.shifts.filter (fun s => s.date = d)

/-- One entry of `shifts_by_team` from `_create_lookup_maps`. -/
def ScheduleModel.shifts_by_team (m : ScheduleModel) (t : Team) : List Shift :=
  m.shifts.filter (fun s => s.team = t)

/-- One entry of `shifts_by_hospital` from `_create_lookup_maps` (matching
is on the hospital's `name`). -/
def ScheduleModel.shifts_by_hospital (m : ScheduleModel) (h : Hospital) : List Shift :=
  m.shifts.filter (fun s => s.hospital.name = h.name)

/-- `eligible_residents` filter from `_create_assignment_variables`:
`service_type not in [OFF_SERVICE, VACATION]`. -/
def eligible (r : Resident) : Bool :=
  decide (¬ (r.service_type = ServiceType.offService ∨
             r.service_type = ServiceType.vacation))

/-- `resident.service_type in [ServiceType.ED, ServiceType.PEDS]`, the guard
used by every per-resident constraint generator. -/
def activeCategory (r : Resident) : Bool :=
  decide (r.service_type = ServiceType.ed ∨ r.service_type = ServiceType.peds)

/-- The key set of `self.assignments` as built by
`_create_assignment_variables`: one key per day of the horizon, shift of
that day, and eligible resident. -/
def ScheduleModel.assignmentKeys (m : ScheduleModel) : List AKey :=
  m.days.flatMap (fun day =>
    (m.shifts_by_day day).flatMap (fun s =>
      (m.residents.filter eligible).map (fun r => (day, s, r))))

/-- `(day, shift, resident) in self.assignments`, the existence guard used
before every variable reference. -/
def hasKey (m : ScheduleModel) (d : Nat) (s : Shift) (r : Resident) : Bool :=
  decide ((d, s, r) ∈ m.assignmentKeys)

/-- `_shift_assignment_constraints`: for every day and mandatory shift of
that day, `sum(assignments[(day, shift, r)] for r in residents if key
exists) == 1`. -/
def ScheduleModel.shift_assignment_constraints (m : ScheduleModel) : List LinCon :=
  m.days.flatMap (fun day =>
    (m.shifts_by_day day).flatMap (fun s =>
      if s.is_mandatory then
        [⟨(m.residents.filter (fun r => hasKey m day s r)).map
            (fun r => ((day, s, r), 1)), Rel.eq, 1⟩]
      else []))

/-- `_resident_daily_constraints`: for every day and resident with service
type ED or PEDS, `sum(assignments over that day's shifts with a key) <= 1`. -/
def ScheduleModel.resident_daily_constraints (m : ScheduleModel) : List LinCon :=
  m.days.flatMap (fun day =>
    m.residents.flatMap (fun r =>
      if activeCategory r then
        [⟨((m.shifts_by_day day).filter (fun s => hasKey m day s r)).map
            (fun s => ((day, s, r), 1)), Rel.le, 1⟩]
      else []))

/-- The `shifts_by_start_time` dictionary `_continuous_hours_constraints`
builds for one day: keys are the start hours in first-occurrence order, the
value at `h` is the day's shifts starting at `h`, in order. -/
def shiftsByStartTime (dayShifts : List Shift) : List (Nat × List Shift) :=
  (dedupFirst (dayShifts.map (fun s => s.start_hour))).map
    (fun h => (h, dayShifts.filter (fun s => s.start_hour = h)))

/-- The `overlapping_shifts` list `_continuous_hours_constraints` collects
for one start-hour group: all shifts of every group whose start hour lies in
the forward-wrapping 12-hour window `(other - start) % 24 < 12` (Python's
`%` on a positive modulus, i.e. `Int.emod`). -/
def overlappingShifts (groups : List (Nat × List Shift)) (start_hour : Nat) :
    List Shift :=
  groups.flatMap (fun g =>
    if ((g.1 : Int) - (start_hour : Int)) % 24 < 12 then g.2 else [])

/-- `_continuous_hours_constraints`: per day, active-category resident and
start-hour group, if more than one shift overlaps the group's 12-hour window
then at most one of the overlapping shifts with a key may be assigned. -/
def ScheduleModel.continuous_hours_constraints (m : ScheduleModel) : List LinCon :=
  m.days.flatMap (fun day =>
    let groups := shiftsByStartTime (m.shifts_by_day day)
    m.residents.flatMap (fun r =>
      if activeCategory r then
        groups.flatMap (fun g =>
          let overlapping := overlappingShifts groups g.1
          if 1 < overlapping.length then
            [⟨(overlapping.filter (fun s => hasKey m day s r)).map
                (fun s => ((day, s, r), 1)), Rel.le, 1⟩]
          else [])
      else []))

/-- The `weeks` dictionary of `_weekly_hours_constraints` and
`_day_off_constraints`: keys are the distinct week starts in
first-occurrence order, the value at `w` is the horizon days of that week,
in order. -/
def weeksOf (days : List Nat) : List (Nat × List Nat) :=
  (dedupFirst (days.map weekStart)).map
    (fun w => (w, days.filter (fun d => weekStart d = w)))

/-- The iteration body of `_weekly_hours_constraints` for one resident of
one week: skip non-active residents; with no accumulated term,
`total_hours` is the int `0` and `if total_hours > 0` is false, so nothing
is added; with any accumulated term, `total_hours` is an ortools
`LinearExpr` and `total_hours > 0` is a `BoundedLinearExpression`, whose
boolean coercion under `if` raises `NotImplementedError` — modelled as
`Except.error`, which any further iteration propagates. -/
def weeklyResidentStep (m : ScheduleModel) (wk : Nat × List Nat)
    (acc : Except String (List LinCon)) (r : Resident) :
    Except String (List LinCon) :=
  match acc with
  | Except.error e => Except.error e
  | Except.ok cs =>
      if activeCategory r then
        if (wk.2.flatMap (fun day =>
            (m.shifts_by_day day).filterMap (fun s =>
              if hasKey m day s r then
                some ((day, s, r), s.duration r.pgy_level)
              else none))).isEmpty then Except.ok cs
        else
          Except.error "NotImplementedError: Evaluating a BoundedLinearExpression as a Boolean value is not supported."
      else Except.ok cs

/-- The iteration body of `_weekly_hours_constraints` for one week: loop
over the residents, propagating a raised exception. -/
def weeklyWeekStep (m : ScheduleModel) (acc : Except String (List LinCon))
    (wk : Nat × List Nat) : Except String (List LinCon) :=
  match acc with
  | Except.error e => Except.error e
  | Except.ok cs => m.residents.foldl (weeklyResidentStep m wk) (Except.ok cs)

/-- `_weekly_hours_constraints`: loops over the weeks and residents and,
before it can ever `model.Add` a `<= 60` constraint, evaluates
`if total_hours > 0` on an ortools `BoundedLinearExpression`, raising
`NotImplementedError` at the first (week, active resident) pair with a
keyed shift; when no pair accumulates a term it returns the empty
constraint list. -/
def ScheduleModel.weekly_hours_constraints (m : ScheduleModel) :
    Except String (List LinCon) :=
  (weeksOf m.days).foldl (weeklyWeekStep m) (Except.ok [])

/-- `_team_constraints`, translated with its actual loop structure: the RED
block iterates every day of the horizon against every RED shift of the whole
model (not only that day's), and likewise the GREEN / INTERN / BLUE blocks;
`if day in self.shifts_by_day` is `day ∈ m.days`, which always holds inside
the loop over `self.days`. -/
def ScheduleModel.team_constraints (m : ScheduleModel) : List LinCon :=
  (m.days.flatMap (fun day =>
    (m.shifts_by_team Team.red).flatMap (fun s =>
      if day ∈ m.days then
        [⟨((m.residents_by_pgy PGYLevel.pgy3).filter
            (fun r => hasKey m day s r)).map (fun r => ((day, s, r), 1)),
          Rel.eq, 1⟩]
      else [])))
  ++ (m.days.flatMap (fun day =>
    ((m.shifts_by_team Team.green).flatMap (fun s =>
      if day ∈ m.days then
        [⟨((m.residents_by_pgy PGYLevel.pgy2).filter
            (fun r => hasKey m day s r)).map (fun r => ((day, s, r), 1)),
          Rel.eq, 1⟩]
      else []))
    ++ ((m.shifts_by_team Team.intern).flatMap (fun s =>
      if day ∈ m.days then
        [⟨((m.residents_by_pgy PGYLevel.pgy1).filter
            (fun r => hasKey m day s r)).map (fun r => ((day, s, r), 1)),
          Rel.eq, 1⟩]
      else []))
    ++ ((m.shifts_by_team Team.blue).flatMap (fun s =>
      if day ∈ m.days then
        [⟨((m.residents_by_pgy PGYLevel.pgy1).filter
            (fun r => hasKey m day s r)).map (fun r => ((day, s, r), 1)),
          Rel.ge, 1⟩]
      else []))))

/-- `get_constraint_specs`: the registry as the code ships it.  Only the
`shift_assignment` spec is present (every other `ConstraintSpec` line is
commented out in the source); all registered specs are hard and enabled. -/
def ScheduleModel.get_constraint_specs (m : ScheduleModel) :
    List (String × List LinCon) :=
  [("shift_assignment", m.shift_assignment_constraints)]

/-- `apply_constraints` with the default argument: the constraints of every
enabled registered spec. -/
def ScheduleModel.default_constraints (m : ScheduleModel) : List LinCon :=
  (m.get_constraint_specs).flatMap (fun spec => spec.2)

/-- The `objective_terms` accumulated when solving with the default
registry: no registered generator is soft, so none are accumulated. -/
def ScheduleModel.default_objective_terms (_m : ScheduleModel) : List Nat := []

/-- The inner `schedule[day]` dictionary `_extract_solution` builds: for
each shift of the day in order, the first resident (in `self.residents`
order) whose variable exists and solved true, if any. -/
def ScheduleModel.extract_day (m : ScheduleModel) (x : Valuation) (d : Nat) :
    List (Shift × Resident) :=
  (m.shifts_by_day d).foldl
    (insertOptStep (fun s =>
      m.residents.find? (fun r => hasKey m d s r && x d s r))) []

/-- `_extract_solution`: the outer `schedule` dictionary, keyed by every day
of the horizon. -/
def ScheduleModel.extract_solution (m : ScheduleModel) (x : Valuation) :
    List (Nat × List (Shift × Resident)) :=
  m.days.foldl (fun acc d => dictInsert d (m.extract_day x d) acc) []

/-- `cp_model` solver statuses relevant to `solve`. -/
inductive SolverStatus where
  | optimal
  | feasible
  | infeasible
  | modelInvalid
  | unknown
deriving DecidableEq, Repr

/-- Outcome of `solve`: whether `Minimize` was called, and the returned
value (`some schedule` or the explicit `None`). -/
structure SolveRun where
  minimized : Bool
  result : Option (List (Nat × List (Shift × Resident)))
deriving Repr

/-- `solve` with the backend abstracted: given the objective terms
accumulated while applying constraints, the status the backend reports, and
the valuation it solved, `Minimize` is called iff some objective terms
exist, and the extracted schedule is returned exactly on `OPTIMAL` or
`FEASIBLE`, `None` otherwise.  The function is total: no exception path. -/
def ScheduleModel.solveRun (m : ScheduleModel) (objective_terms : List Nat)
    (status : SolverStatus) (x : Valuation) : SolveRun :=
  { minimized := !objective_terms.isEmpty,
    result :=
      if status = SolverStatus.optimal ∨ status = SolverStatus.feasible then
        some (m.extract_solution x)
      else none }

/-! Concrete sample data used by witnesses and counterexamples.
Ordinal 8 is a Monday (`weekday 8 = 0`). -/

/-- Sample hospital. -/
def hospL : Hospital := ⟨"L"⟩

/-- Sample hospital system. -/
def sysLW : HospitalSystem := ⟨"System", [hospL]⟩

/-- Sample RED Monday-morning template. -/
def tRed : ShiftTemplate := ⟨hospL, Team.red, 7, DayOfWeek.monday, "m-L-R-07-M", true⟩

/-- Sample GREEN Monday-morning template. -/
def tGreen : ShiftTemplate := ⟨hospL, Team.green, 7, DayOfWeek.monday, "m-L-G-07-M", true⟩

/-- Sample GREEN Monday-afternoon (4PM) template. -/
def tEve : ShiftTemplate := ⟨hospL, Team.green, 16, DayOfWeek.monday, "m-L-G-16-M", true⟩

/-- RED shift instance on ordinal 8. -/
def sRed8 : Shift := ⟨tRed, 8, "m-L-R-07-M-8"⟩

/-- GREEN morning shift instance on ordinal 8. -/
def sGreen8 : Shift := ⟨tGreen, 8, "m-L-G-07-M-8"⟩

/-- GREEN 4PM shift instance on ordinal 8. -/
def sEve8 : Shift := ⟨tEve, 8, "m-L-G-16-M-8"⟩

/-- Sample PGY-1 ED resident. -/
def alice : Resident := ⟨"Alice", PGYLevel.pgy1, ServiceType.ed, 60, [], 0⟩

/-- Sample PGY-1 ED resident. -/
def bob : Resident := ⟨"Bob", PGYLevel.pgy1, ServiceType.ed, 60, [], 0⟩

/-- Sample PGY-3 ED resident. -/
def carol : Resident := ⟨"Carol", PGYLevel.pgy3, ServiceType.ed, 60, [], 0⟩

/-- Sample resident on vacation. -/
def vera : Resident := ⟨"Vera", PGYLevel.pgy2, ServiceType.vacation, 0, [], 0⟩

/-- Two-resident, two-shift, one-day model. -/
def mTwo : ScheduleModel := ⟨[alice, bob, vera], [sRed8, sGreen8], [8], sysLW⟩

/-- One ED resident with two mandatory shifts on the same day. -/
def mOne : ScheduleModel := ⟨[alice], [sRed8, sGreen8], [8], sysLW⟩

/-- One PGY-3 resident, one RED shift, a two-day horizon. -/
def mRed2 : ScheduleModel := ⟨[carol], [sRed8], [8, 9], sysLW⟩

/-- One ED resident with morning and night shifts on one day. -/
def mHours : ScheduleModel := ⟨[alice], [sGreen8, sEve8], [8], sysLW⟩

/-- Valuation solving every variable true. -/
def xAll : Valuation := fun _ _ _ => true

/-- Valuation assigning Alice to the RED shift and Bob to the GREEN shift. -/
def xSplit : Valuation := fun d s r =>
  (decide (d = 8) && decide (s = sRed8) && decide (r = alice)) ||
  (decide (d = 8) && decide (s = sGreen8) && decide (r = bob))

/-- Valuation assigning Alice to the GREEN morning shift only. -/
def xGreen : Valuation := fun d s r =>
  decide (d = 8) && decide (s = sGreen8) && decide (r = alice)

/-!  Helper lemmas about the embedded dictionary and counting operations. -/

theorem mem_dedupFirst [DecidableEq α] {a : α} {l : List α} :
    a ∈ dedupFirst l ↔ a ∈ l := by
  induction l with
  | nil => simp [dedupFirst]
  | cons b rest ih =>
      by_cases hab : a = b
      · subst hab
        simp [dedupFirst]
      · simp [dedupFirst, List.mem_filter, hab, ih]

theorem nodup_dedupFirst [DecidableEq α] (l : List α) :
    (dedupFirst l).Nodup := by
  induction l with
  | nil => simp [dedupFirst]
  | cons b rest ih =>
      refine List.nodup_cons.mpr ⟨?_, ?_⟩
      · intro hmem
        exact (by simpa using (List.mem_filter.mp hmem).2 : ¬ b = b) rfl
      · exact ih.filter _

theorem dictLookup_dictInsert [DecidableEq κ] (k k' : κ) (v : β)
    (l : List (κ × β)) :
    dictLookup k (dictInsert k' v l) =
      if k' = k then some v else dictLookup k l := by
  induction l with
  | nil => simp [dictInsert, dictLookup]
  | cons e rest ih =>
      obtain ⟨k₀, v₀⟩ := e
      by_cases h0 : k₀ = k'
      · subst h0
        by_cases h1 : k₀ = k <;> simp [dictInsert, dictLookup, h1]
      · by_cases h1 : k₀ = k
        · subst h1
          have h2 : ¬ k' = k₀ := fun h => h0 h.symm
          simp [dictInsert, dictLookup, h0, h2]
        · simp [dictInsert, dictLookup, h0, h1, ih]

theorem mem_dictInsert [DecidableEq κ] {e : κ × β} {k : κ} {v : β}
    {l : List (κ × β)} (h : e ∈ dictInsert k v l) : e = (k, v) ∨ e ∈ l := by
  induction l with
  | nil => simpa [dictInsert] using h
  | cons e₀ rest ih =>
      obtain ⟨k₀, v₀⟩ := e₀
      by_cases h0 : k₀ = k
      · subst h0
        rcases (by simpa [dictInsert] using h :
            e = (k₀, v) ∨ e ∈ rest) with h1 | h1
        · exact Or.inl h1
        · exact Or.inr (List.mem_cons.mpr (Or.inr h1))
      · rcases (by simpa [dictInsert, h0] using h :
            e = (k₀, v₀) ∨ e ∈ dictInsert k v rest) with h1 | h1
        · exact Or.inr (List.mem_cons.mpr (Or.inl h1))
        · rcases ih h1 with h2 | h2
          · exact Or.inl h2
          · exact Or.inr (List.mem_cons.mpr (Or.inr h2))

theorem keys_dictInsert [DecidableEq κ] (k : κ) (v : β) (l : List (κ × β)) :
    (dictInsert k v l).map Prod.fst =
      if k ∈ l.map Prod.fst then l.map Prod.fst else l.map Prod.fst ++ [k] := by
  induction l with
  | nil => simp [dictInsert]
  | cons e rest ih =>
      obtain ⟨k₀, v₀⟩ := e
      by_cases h0 : k₀ = k
      · subst h0
        simp [dictInsert]
      · have h1 : ¬ k = k₀ := fun h => h0 h.symm
        by_cases h2 : k ∈ rest.map Prod.fst <;>
          simp [dictInsert, h0, h1, h2, ih]

theorem keysNodup_dictInsert [DecidableEq κ] (k : κ) (v : β)
    {l : List (κ × β)} (h : (l.map Prod.fst).Nodup) :
    ((dictInsert k v l).map Prod.fst).Nodup := by
  rw [keys_dictInsert]
  by_cases h2 : k ∈ l.map Prod.fst
  · simpa [h2] using h
  · rw [if_neg h2]
    refine List.Nodup.append h (List.nodup_singleton k) ?_
    intro a ha hak
    have hk : a = k := by simpa using hak
    subst hk
    exact h2 ha

theorem dictLookup_foldl_insert [DecidableEq κ] (f : κ → β) (l : List κ)
    (acc : List (κ × β)) (k : κ) :
    dictLookup k (l.foldl (fun a d => dictInsert d (f d) a) acc) =
      if k ∈ l then some (f k) else dictLookup k acc := by
  induction l generalizing acc with
  | nil => simp
  | cons d rest ih =>
      rw [List.foldl_cons, ih]
      by_cases h1 : k ∈ rest
      · simp [h1, List.mem_cons]
      · by_cases h2 : d = k
        · subst h2
          simp [h1, dictLookup_dictInsert]
        · have h3 : ¬ k = d := fun h => h2 h.symm
          simp [h1, h2, h3, dictLookup_dictInsert]

theorem dictLookup_foldl_insertOpt [DecidableEq α] (g : α → Option β)
    (l : List α) (acc : List (α × β)) (k : α) :
    dictLookup k (l.foldl (insertOptStep g) acc) =
      if k ∈ l ∧ (g k).isSome then g k else dictLookup k acc := by
  induction l generalizing acc with
  | nil => simp
  | cons d rest ih =>
      rw [List.foldl_cons, ih]
      by_cases h1 : k ∈ rest ∧ (g k).isSome
      · simp only [if_pos h1]
        rw [if_pos ⟨List.mem_cons.mpr (Or.inr h1.1), h1.2⟩]
      · by_cases h2 : d = k
        · subst h2
          cases hg : g d with
          | none => simp [insertOptStep, hg]
          | some r =>
              have h3 : d ∉ rest := fun hmem => h1 ⟨hmem, by simp [hg]⟩
              simp [insertOptStep, hg, h3, dictLookup_dictInsert]
        · have h3 : ¬ (k ∈ d :: rest ∧ (g k).isSome) := by
            intro hx
            rcases List.mem_cons.mp hx.1 with h4 | h4
            · exact h2 h4.symm
            · exact h1 ⟨h4, hx.2⟩
          rw [if_neg h1, if_neg h3]
          cases hg : g d with
          | none => simp [insertOptStep, hg]
          | some r => simp [insertOptStep, hg, dictLookup_dictInsert, h2]

theorem foldl_insertOpt_entries [DecidableEq α] (g : α → Option β)
    (l : List α) (acc : List (α × β)) (hacc : (acc.map Prod.fst).Nodup) :
    ((l.foldl (insertOptStep g) acc).map Prod.fst).Nodup ∧
    ∀ e ∈ l.foldl (insertOptStep g) acc,
      (e.1 ∈ l ∧ g e.1 = some e.2) ∨ e ∈ acc := by
  induction l generalizing acc with
  | nil => exact ⟨hacc, fun e he => Or.inr he⟩
  | cons d rest ih =>
      rw [List.foldl_cons]
      cases hg : g d with
      | none =>
          rw [show insertOptStep g acc d = acc by simp [insertOptStep, hg]]
          have h := ih acc hacc
          exact ⟨h.1, fun e he => (h.2 e he).imp
            (fun he2 => ⟨List.mem_cons.mpr (Or.inr he2.1), he2.2⟩) id⟩
      | some r =>
          rw [show insertOptStep g acc d = dictInsert d r acc by
            simp [insertOptStep, hg]]
          have h := ih (dictInsert d r acc) (keysNodup_dictInsert d r hacc)
          refine ⟨h.1, fun e he => ?_⟩
          rcases h.2 e he with h2 | h2
          · exact Or.inl ⟨List.mem_cons.mpr (Or.inr h2.1), h2.2⟩
          · rcases mem_dictInsert h2 with h3 | h3
            · subst h3
              exact Or.inl ⟨List.mem_cons.mpr (Or.inl rfl), hg⟩
            · exact Or.inr h3

theorem foldl_insertOpt_of_none [DecidableEq α] (g : α → Option β)
    (l : List α) (acc : List (α × β)) (h : ∀ a ∈ l, g a = none) :
    l.foldl (insertOptStep g) acc = acc := by
  induction l generalizing acc with
  | nil => rfl
  | cons d rest ih =>
      rw [List.foldl_cons, show insertOptStep g acc d = acc by
        simp [insertOptStep, h d (List.mem_cons.mpr (Or.inl rfl))]]
      exact ih acc (fun a ha => h a (List.mem_cons.mpr (Or.inr ha)))

theorem length_le_countP_of_nodup [DecidableEq α] (ks L : List α)
    (p : α → Bool) (hnd : ks.Nodup) (hmem : ∀ k ∈ ks, k ∈ L ∧ p k = true) :
    ks.length ≤ L.countP p := by
  induction ks generalizing L with
  | nil => simp
  | cons k rest ih =>
      obtain ⟨hkL, hpk⟩ := hmem k (List.mem_cons.mpr (Or.inl rfl))
      have hperm : L.Perm (k :: L.erase k) := List.perm_cons_erase hkL
      have hcount : L.countP p = (L.erase k).countP p + 1 := by
        rw [hperm.countP_eq p, List.countP_cons, if_pos hpk]
      have hnd2 := List.nodup_cons.mp hnd
      have hrest : ∀ k' ∈ rest, k' ∈ L.erase k ∧ p k' = true := by
        intro k' hk'
        obtain ⟨hk'L, hpk'⟩ := hmem k' (List.mem_cons.mpr (Or.inr hk'))
        refine ⟨?_, hpk'⟩
        have hne : k' ≠ k := fun h => hnd2.1 (h ▸ hk')
        exact (List.mem_erase_of_ne hne).mpr hk'L
      have := ih (L.erase k) hnd2.2 hrest
      simp only [List.length_cons]
      omega

theorem sum_unit_terms (L : List α) (p : α → Bool) (key : α → AKey)
    (x : Valuation) :
    (((L.filter p).map (fun a => (key a, 1))).map
        (fun t => t.2 * (if keyVal x t.1 then 1 else 0))).sum =
      L.countP (fun a => p a && keyVal x (key a)) := by
  induction L with
  | nil => simp
  | cons a rest ih =>
      rw [List.filter_cons, List.countP_cons]
      by_cases hp : p a
      · rw [if_pos hp, List.map_cons, List.map_cons, List.sum_cons, ih]
        by_cases hx : keyVal x (key a) = true
        · simp [hp, hx, Nat.add_comm]
        · have hx' : keyVal x (key a) = false := by simpa using hx
          simp [hp, hx']
      · have hpa : p a = false := by simpa using hp
        rw [if_neg hp, ih]
        simp [hpa]

theorem sum_map_single_key [DecidableEq κ] (hs : List κ) (k0 : κ) (w : Nat)
    (hnd : hs.Nodup) :
    (hs.map (fun k => if k = k0 then w else 0)).sum =
      if k0 ∈ hs then w else 0 := by
  induction hs with
  | nil => simp
  | cons k rest ih =>
      have hnd2 := List.nodup_cons.mp hnd
      by_cases hk : k = k0
      · subst hk
        simp [hnd2.1, ih hnd2.2, sum_map_single_key]
      · have hne : ¬ k0 = k := fun h => hk h.symm
        simp [hk, hne, ih hnd2.2, List.mem_cons]

theorem countP_key_partition [DecidableEq κ] (key : α → κ) (L : List α)
    (hs : List κ) (hnd : hs.Nodup) (hcov : ∀ a ∈ L, key a ∈ hs)
    (f : κ → Bool) (q : α → Bool) :
    (hs.map (fun k => if f k then
        (L.filter (fun a => key a = k)).countP q else 0)).sum =
      L.countP (fun a => f (key a) && q a) := by
  induction L with
  | nil => simp
  | cons a rest ih =>
      have hcov2 : ∀ b ∈ rest, key b ∈ hs := fun b hb =>
        hcov b (List.mem_cons.mpr (Or.inr hb))
      have hka : key a ∈ hs := hcov a (List.mem_cons.mpr (Or.inl rfl))
      have hsplit : ∀ k ∈ hs,
          (if f k then ((a :: rest).filter (fun b => key b = k)).countP q
           else 0) =
          (if f k then (rest.filter (fun b => key b = k)).countP q else 0) +
          (if k = key a then (if f (key a) && q a then 1 else 0) else 0) := by
        intro k _
        by_cases hkk : k = key a
        · have hfc : (a :: rest).filter (fun b => decide (key b = k)) =
              a :: rest.filter (fun b => decide (key b = k)) := by
            rw [List.filter_cons, if_pos (by simp [hkk])]
          rw [hfc, List.countP_cons, if_pos hkk, hkk]
          by_cases hfk : f (key a)
          · by_cases hq : q a <;> simp [hfk, hq]
          · simp [hfk]
        · have hka2 : ¬ key a = k := fun h => hkk h.symm
          have hfc : (a :: rest).filter (fun b => decide (key b = k)) =
              rest.filter (fun b => decide (key b = k)) := by
            rw [List.filter_cons, if_neg (by simp [hka2])]
          rw [hfc, if_neg hkk]
          simp
      rw [List.map_congr_left hsplit, List.sum_map_add, ih hcov2,
        sum_map_single_key hs (key a) _ hnd, if_pos hka, List.countP_cons]

theorem countP_overlapping (dayShifts : List Shift) (h : Nat)
    (q : Shift → Bool) :
    (overlappingShifts (shiftsByStartTime dayShifts) h).countP q =
      dayShifts.countP (fun s =>
        decide (((s.start_hour : Int) - (h : Int)) % 24 < 12) && q s) := by
  unfold overlappingShifts shiftsByStartTime
  rw [List.flatMap_map, List.countP_flatMap]
  refine Eq.trans (congrArg List.sum (List.map_congr_left (fun k _ => ?_)))
    (countP_key_partition (fun s => s.start_hour) dayShifts
      (dedupFirst (dayShifts.map (fun s => s.start_hour)))
      (nodup_dedupFirst _)
      (fun a ha => mem_dedupFirst.mpr (List.mem_map.mpr ⟨a, ha, rfl⟩))
      (fun (k : Nat) => decide (((k : Int) - (h : Int)) % 24 < 12)) q)
  by_cases hf : ((k : Int) - (h : Int)) % 24 < 12 <;> simp [hf]

theorem length_overlapping (dayShifts : List Shift) (h : Nat) :
    (overlappingShifts (shiftsByStartTime dayShifts) h).length =
      dayShifts.countP (fun s =>
        decide (((s.start_hour : Int) - (h : Int)) % 24 < 12)) := by
  have := countP_overlapping dayShifts h (fun _ => true)
  simpa [List.countP_true] using this

theorem hasKey_iff (m : ScheduleModel) (d : Nat) (s : Shift) (r : Resident) :
    hasKey m d s r = true ↔
      d ∈ m.days ∧ s ∈ m.shifts ∧ s.date = d ∧ r ∈ m.residents ∧
        eligible r = true := by
  unfold hasKey ScheduleModel.assignmentKeys ScheduleModel.shifts_by_day
  rw [decide_eq_true_iff]
  constructor
  · intro hmem
    obtain ⟨d', hd', hmem2⟩ := List.mem_flatMap.mp hmem
    obtain ⟨s', hs', hmem3⟩ := List.mem_flatMap.mp hmem2
    obtain ⟨r', hr', heq⟩ := List.mem_map.mp hmem3
    have hd : d' = d := congrArg Prod.fst heq
    have hsx : s' = s := congrArg (fun t => t.2.1) heq
    have hrx : r' = r := congrArg (fun t => t.2.2) heq
    subst hd
    subst hsx
    subst hrx
    have hsf := List.mem_filter.mp hs'
    have hrf := List.mem_filter.mp hr'
    exact ⟨hd', hsf.1, by simpa using hsf.2, hrf.1, hrf.2⟩
  · intro ⟨h1, h2, h3, h4, h5⟩
    refine List.mem_flatMap.mpr ⟨d, h1, ?_⟩
    refine List.mem_flatMap.mpr ⟨s, ?_, ?_⟩
    · exact List.mem_filter.mpr ⟨h2, by simpa using h3⟩
    · exact List.mem_map.mpr ⟨r, List.mem_filter.mpr ⟨h4, h5⟩, rfl⟩

theorem holds_unit_eq (L : List α) (p : α → Bool) (key : α → AKey) (b : Nat)
    (x : Valuation) :
    LinCon.holds ⟨(L.filter p).map (fun a => (key a, 1)), Rel.eq, b⟩ x = true ↔
      L.countP (fun a => p a && keyVal x (key a)) = b := by
  rw [show (LinCon.holds ⟨(L.filter p).map (fun a => (key a, 1)), Rel.eq, b⟩ x)
      = ((((L.filter p).map (fun a => (key a, 1))).map
          (fun t => t.2 * (if keyVal x t.1 then 1 else 0))).sum == b) from rfl,
    sum_unit_terms, beq_iff_eq]

theorem holds_unit_le (L : List α) (p : α → Bool) (key : α → AKey) (b : Nat)
    (x : Valuation) :
    LinCon.holds ⟨(L.filter p).map (fun a => (key a, 1)), Rel.le, b⟩ x = true ↔
      L.countP (fun a => p a && keyVal x (key a)) ≤ b := by
  rw [show (LinCon.holds ⟨(L.filter p).map (fun a => (key a, 1)), Rel.le, b⟩ x)
      = decide ((((L.filter p).map (fun a => (key a, 1))).map
          (fun t => t.2 * (if keyVal x t.1 then 1 else 0))).sum ≤ b) from rfl,
    sum_unit_terms, decide_eq_true_iff]

/-! The claim theorems. -/

/-- C3: the model builds one decision variable for exactly the triples
`(day, shift, resident)` with the day in the horizon, the shift (of the
shift list) dated on that day, and the resident (of the roster) neither
off-service nor on vacation; in particular a resident with VACATION service
type never gets a decision variable. -/
theorem C3_variable_domain (m : ScheduleModel) (d : Nat) (s : Shift)
    (r : Resident) :
    ((d, s, r) ∈ m.assignmentKeys ↔
      d ∈ m.days ∧ s ∈ m.shifts ∧ s.date = d ∧ r ∈ m.residents ∧
        r.service_type ≠ ServiceType.offService ∧
        r.service_type ≠ ServiceType.vacation) ∧
    (r.service_type = ServiceType.vacation → (d, s, r) ∉ m.assignmentKeys) := by
  have h1 : (d, s, r) ∈ m.assignmentKeys ↔ hasKey m d s r = true := by
    unfold hasKey
    exact decide_eq_true_iff.symm
  have h2 := h1.trans (hasKey_iff m d s r)
  constructor
  · refine h2.trans ?_
    constructor
    · rintro ⟨ha, hb, hc, hd2, he⟩
      have hne := decide_eq_true_iff.mp he
      exact ⟨ha, hb, hc, hd2, fun h => hne (Or.inl h), fun h => hne (Or.inr h)⟩
    · rintro ⟨ha, hb, hc, hd2, he, hf⟩
      exact ⟨ha, hb, hc, hd2, decide_eq_true (fun h => h.elim he hf)⟩
  · intro hvac hmem2
    have he := (h2.mp hmem2).2.2.2.2
    exact decide_eq_true_iff.mp he (Or.inr hvac)

/-- Witness for C3 at concrete data: the eligible triple is a key, the
vacationing resident's triple is not. -/
theorem C3_witness :
    (8, sRed8, alice) ∈ mTwo.assignmentKeys ∧
      hasKey mTwo 8 sRed8 vera = false := by
  constructor
  · exact (C3_variable_domain mTwo 8 sRed8 alice).1.mpr
      ⟨by decide, by decide, by decide, by decide, by decide, by decide⟩
  · unfold hasKey
    exact decide_eq_false ((C3_variable_domain mTwo 8 sRed8 vera).2 rfl)

/-- C1: a valuation satisfies the shift-assignment constraints exactly when
every mandatory shift on a day of the horizon has exactly one assigned
resident among those with an existing key; no constraint restricts the
optional shifts. -/
theorem C1_mandatory_exactly_one (m : ScheduleModel) (x : Valuation) :
    Sat m.shift_assignment_constraints x ↔
      ∀ d ∈ m.days, ∀ s ∈ m.shifts_by_day d, s.is_mandatory = true →
        m.residents.countP (fun r => hasKey m d s r && x d s r) = 1 := by
  constructor
  · intro hsat d hd s hs hman
    have hcmem : (⟨(m.residents.filter (fun r => hasKey m d s r)).map
        (fun r => ((d, s, r), 1)), Rel.eq, 1⟩ : LinCon) ∈
        m.shift_assignment_constraints := by
      unfold ScheduleModel.shift_assignment_constraints
      refine List.mem_flatMap.mpr ⟨d, hd, List.mem_flatMap.mpr ⟨s, hs, ?_⟩⟩
      rw [if_pos hman]
      exact List.mem_singleton.mpr rfl
    exact (holds_unit_eq m.residents (fun r => hasKey m d s r)
      (fun r => (d, s, r)) 1 x).mp (hsat _ hcmem)
  · intro hall c hc
    unfold ScheduleModel.shift_assignment_constraints at hc
    obtain ⟨d, hd, hc2⟩ := List.mem_flatMap.mp hc
    obtain ⟨s, hs, hc3⟩ := List.mem_flatMap.mp hc2
    by_cases hman : s.is_mandatory = true
    · rw [if_pos hman] at hc3
      have hceq := List.mem_singleton.mp hc3
      subst hceq
      exact (holds_unit_eq m.residents (fun r => hasKey m d s r)
        (fun r => (d, s, r)) 1 x).mpr (hall d hd s hs hman)
    · rw [if_neg hman] at hc3
      simp at hc3

/-- Witness for C1: the split valuation satisfies the shift-assignment
constraints of the two-resident model. -/
theorem C1_witness : Sat mTwo.shift_assignment_constraints xSplit :=
  (C1_mandatory_exactly_one mTwo xSplit).mpr (by decide)

/-- C2 refuted as stated: under the default registry (which contains only
`shift_assignment`), the all-true valuation is feasible for the one-resident
model with two mandatory shifts on day 8, `solve` on a feasible status
returns its extracted schedule, and that schedule gives the active-category
resident two shifts on one day. -/
theorem C2_counterexample :
    Sat mOne.default_constraints xAll ∧
    (mOne.solveRun mOne.default_objective_terms SolverStatus.feasible
        xAll).result = some (mOne.extract_solution xAll) ∧
    dictLookup 8 (mOne.extract_solution xAll) =
      some [(sRed8, alice), (sGreen8, alice)] ∧
    alice ∈ mOne.residents ∧ activeCategory alice = true ∧
    (8 : Nat) ∈ mOne.days ∧
    1 < (mOne.extract_day xAll 8).countP (fun e => e.2 = alice) := by
  refine ⟨by decide, by decide, by decide, by decide, by decide, by decide,
    by decide⟩

/-- C2 (amended): when the resident-daily constraint generator's
constraints are satisfied, every active-category (ED or PEDS) resident of
the model has at most one assigned shift per horizon day in the extracted
schedule. -/
theorem C2_daily_cap_under_generator (m : ScheduleModel) (x : Valuation)
    (hsat : Sat m.resident_daily_constraints x) :
    ∀ r ∈ m.residents, activeCategory r = true → ∀ d ∈ m.days,
      (m.extract_day x d).countP (fun e => e.2 = r) ≤ 1 := by
  intro r hr hact d hd
  have hcmem : (⟨((m.shifts_by_day d).filter (fun s => hasKey m d s r)).map
      (fun s => ((d, s, r), 1)), Rel.le, 1⟩ : LinCon) ∈
      m.resident_daily_constraints := by
    unfold ScheduleModel.resident_daily_constraints
    refine List.mem_flatMap.mpr ⟨d, hd, List.mem_flatMap.mpr ⟨r, hr, ?_⟩⟩
    rw [if_pos hact]
    exact List.mem_singleton.mpr rfl
  have hbound := (holds_unit_le (m.shifts_by_day d)
      (fun s => hasKey m d s r) (fun s => (d, s, r)) 1 x).mp (hsat _ hcmem)
  have hentries := foldl_insertOpt_entries
      (fun s => m.residents.find? (fun r' => hasKey m d s r' && x d s r'))
      (m.shifts_by_day d) [] (by simp)
  have hkeysnd : ((m.extract_day x d).map Prod.fst).Nodup := hentries.1
  have hprop : ∀ e ∈ m.extract_day x d, e.1 ∈ m.shifts_by_day d ∧
      m.residents.find? (fun r' => hasKey m d e.1 r' && x d e.1 r') =
        some e.2 := by
    intro e he
    rcases hentries.2 e he with h1 | h1
    · exact h1
    · simp at h1
  have hcount : (m.extract_day x d).countP (fun e => e.2 = r) =
      (((m.extract_day x d).filter (fun e => e.2 = r)).map Prod.fst).length := by
    rw [List.countP_eq_length_filter, List.length_map]
  rw [hcount]
  refine Nat.le_trans (length_le_countP_of_nodup _ (m.shifts_by_day d)
    (fun s => hasKey m d s r && x d s r)
    (List.Nodup.sublist (List.Sublist.map Prod.fst
      ((m.extract_day x d).filter_sublist)) hkeysnd) ?_) hbound
  intro k hk
  obtain ⟨e, he, hek⟩ := List.mem_map.mp hk
  have hef := List.mem_filter.mp he
  have her : e.2 = r := by simpa using hef.2
  obtain ⟨hmem, hfind⟩ := hprop e hef.1
  have hpred := List.find?_some (hfind.trans (congrArg some her))
  subst hek
  exact ⟨hmem, hpred⟩

/-- Witness for C2 (amended): the split valuation satisfies the
resident-daily constraints of the two-resident model, and Alice has at most
one extracted shift on day 8. -/
theorem C2_witness :
    (mTwo.extract_day xSplit 8).countP (fun e => e.2 = alice) ≤ 1 :=
  C2_daily_cap_under_generator mTwo xSplit (by decide) alice (by decide)
    (by decide) 8 (by decide)

/-- C4 refuted on the code as written: for the model with a single RED
shift dated on the first of two horizon days and an eligible PGY-3
resident, the team-constraint generator's output is unsatisfiable (it
contains the constraint `0 == 1` produced for the second day paired with
the first day's shift), so it is not equivalent to the claimed per-shift
staffing rule. -/
theorem C4_team_constraints_unsatisfiable :
    ∀ x : Valuation,
      (mRed2.team_constraints).all (fun c => c.holds x) = false := by
  intro x
  have hmem : (⟨[], Rel.eq, 1⟩ : LinCon) ∈ mRed2.team_constraints := by decide
  cases hall : (mRed2.team_constraints).all (fun c => c.holds x) with
  | false => rfl
  | true =>
      have hfalse : LinCon.holds ⟨[], Rel.eq, 1⟩ x = false := rfl
      have htrue := List.all_eq_true.mp hall _ hmem
      rw [hfalse] at htrue
      exact absurd htrue (by decide)

/-- C5: any valuation satisfying the continuous-hours constraints assigns
each active-category resident at most one of a day's shifts whose start
hour falls in the forward-wrapping 12-hour window of any start hour
occurring that day. -/
theorem C5_continuous_hours_window (m : ScheduleModel) (x : Valuation)
    (hsat : Sat m.continuous_hours_constraints x) :
    ∀ d ∈ m.days, ∀ r ∈ m.residents, activeCategory r = true →
      ∀ (h : Nat), h ∈ (m.shifts_by_day d).map (fun s => s.start_hour) →
        (m.shifts_by_day d).countP (fun s =>
          decide (((s.start_hour : Int) - (h : Int)) % 24 < 12) &&
          (hasKey m d s r && x d s r)) ≤ 1 := by
  intro d hd r hr hact h hh
  have hgmem : (h, (m.shifts_by_day d).filter (fun s => s.start_hour = h)) ∈
      shiftsByStartTime (m.shifts_by_day d) := by
    unfold shiftsByStartTime
    exact List.mem_map.mpr ⟨h, mem_dedupFirst.mpr hh, rfl⟩
  have hcount : ∀ q : Shift → Bool,
      (overlappingShifts (shiftsByStartTime (m.shifts_by_day d)) h).countP q =
        (m.shifts_by_day d).countP (fun s =>
          decide (((s.start_hour : Int) - (h : Int)) % 24 < 12) && q s) :=
    fun q => countP_overlapping (m.shifts_by_day d) h q
  by_cases hlen :
      1 < (overlappingShifts (shiftsByStartTime (m.shifts_by_day d)) h).length
  · have hcmem : (⟨((overlappingShifts (shiftsByStartTime (m.shifts_by_day d))
        h).filter (fun s => hasKey m d s r)).map
        (fun s => ((d, s, r), 1)), Rel.le, 1⟩ : LinCon) ∈
        m.continuous_hours_constraints := by
      unfold ScheduleModel.continuous_hours_constraints
      refine List.mem_flatMap.mpr ⟨d, hd, ?_⟩
      refine List.mem_flatMap.mpr ⟨r, hr, ?_⟩
      rw [if_pos hact]
      refine List.mem_flatMap.mpr
        ⟨(h, (m.shifts_by_day d).filter (fun s => s.start_hour = h)), hgmem, ?_⟩
      show _ ∈ (if 1 < (overlappingShifts
          (shiftsByStartTime (m.shifts_by_day d)) h).length then _ else [])
      rw [if_pos hlen]
      exact List.mem_singleton.mpr rfl
    have hholds := (holds_unit_le
        (overlappingShifts (shiftsByStartTime (m.shifts_by_day d)) h)
        (fun s => hasKey m d s r) (fun s => (d, s, r)) 1 x).mp (hsat _ hcmem)
    have heq := hcount (fun s => hasKey m d s r && x d s r)
    exact heq ▸ hholds
  · have hlen2 : (overlappingShifts (shiftsByStartTime (m.shifts_by_day d))
        h).length ≤ 1 := Nat.le_of_not_lt hlen
    have h1 : (m.shifts_by_day d).countP (fun s =>
        decide (((s.start_hour : Int) - (h : Int)) % 24 < 12) &&
        (hasKey m d s r && x d s r)) =
        (overlappingShifts (shiftsByStartTime (m.shifts_by_day d)) h).countP
          (fun s => hasKey m d s r && x d s r) :=
      (hcount (fun s => hasKey m d s r && x d s r)).symm
    rw [h1]
    exact Nat.le_trans (List.countP_le_length _) hlen2

/-- Witness for C5: in the morning/afternoon one-resident model with Alice
assigned only the morning shift, the 12-hour window around hour 7 holds at
most one of her assignments. -/
theorem C5_witness :
    (mHours.shifts_by_day 8).countP (fun s =>
      decide (((s.start_hour : Int) - (7 : Int)) % 24 < 12) &&
      (hasKey mHours 8 s alice && xGreen 8 s alice)) ≤ 1 :=
  C5_continuous_hours_window mHours xGreen (by decide) 8 (by decide) alice
    (by decide) (by decide) 7 (by decide)

/-- A raised exception propagates through the rest of the per-resident
loop of `_weekly_hours_constraints`. -/
theorem foldl_weeklyResidentStep_error (m : ScheduleModel)
    (wk : Nat × List Nat) (rs : List Resident) (e : String) :
    rs.foldl (weeklyResidentStep m wk) (Except.error e) = Except.error e := by
  induction rs with
  | nil => rfl
  | cons r rest ih =>
      rw [List.foldl_cons,
        show weeklyResidentStep m wk (Except.error e) r = Except.error e
          from rfl]
      exact ih

/-- The per-resident loop of `_weekly_hours_constraints` either leaves the
constraint accumulator unchanged or raises. -/
theorem foldl_weeklyResidentStep_ok (m : ScheduleModel) (wk : Nat × List Nat)
    (rs : List Resident) (cs : List LinCon) :
    rs.foldl (weeklyResidentStep m wk) (Except.ok cs) = Except.ok cs ∨
    ∃ e, rs.foldl (weeklyResidentStep m wk) (Except.ok cs) =
      Except.error e := by
  induction rs with
  | nil => exact Or.inl rfl
  | cons r rest ih =>
      rw [List.foldl_cons]
      have hstep : weeklyResidentStep m wk (Except.ok cs) r = Except.ok cs ∨
          ∃ e, weeklyResidentStep m wk (Except.ok cs) r = Except.error e := by
        by_cases ha : activeCategory r = true
        · by_cases hb : (wk.2.flatMap (fun day =>
              (m.shifts_by_day day).filterMap (fun s =>
                if hasKey m day s r then
                  some ((day, s, r), s.duration r.pgy_level)
                else none))).isEmpty = true
          · exact Or.inl (by simp [weeklyResidentStep, ha, hb])
          · exact Or.inr
              ⟨"NotImplementedError: Evaluating a BoundedLinearExpression as a Boolean value is not supported.",
                by simp [weeklyResidentStep, ha, hb]⟩
        · exact Or.inl (by simp [weeklyResidentStep, ha])
      rcases hstep with h | ⟨e, h⟩
      · rw [h]
        exact ih
      · rw [h, foldl_weeklyResidentStep_error m wk rest e]
        exact Or.inr ⟨e, rfl⟩

/-- A raised exception propagates through the rest of the per-week loop of
`_weekly_hours_constraints`. -/
theorem foldl_weeklyWeekStep_error (m : ScheduleModel)
    (wks : List (Nat × List Nat)) (e : String) :
    wks.foldl (weeklyWeekStep m) (Except.error e) = Except.error e := by
  induction wks with
  | nil => rfl
  | cons wk rest ih =>
      rw [List.foldl_cons,
        show weeklyWeekStep m (Except.error e) wk = Except.error e from rfl]
      exact ih

/-- The whole weekly-hours loop either returns its starting accumulator
unchanged or raises: no `<= 60` constraint is ever produced. -/
theorem foldl_weeklyWeekStep_ok (m : ScheduleModel)
    (wks : List (Nat × List Nat)) (cs : List LinCon) :
    wks.foldl (weeklyWeekStep m) (Except.ok cs) = Except.ok cs ∨
    ∃ e, wks.foldl (weeklyWeekStep m) (Except.ok cs) = Except.error e := by
  induction wks generalizing cs with
  | nil => exact Or.inl rfl
  | cons wk rest ih =>
      rw [List.foldl_cons,
        show weeklyWeekStep m (Except.ok cs) wk =
          m.residents.foldl (weeklyResidentStep m wk) (Except.ok cs)
          from rfl]
      rcases foldl_weeklyResidentStep_ok m wk m.residents cs with h | ⟨e, h⟩
      · rw [h]
        exact ih cs
      · rw [h, foldl_weeklyWeekStep_error m rest e]
        exact Or.inr ⟨e, rfl⟩

/-- C6 refuted on the code as written: on the one-resident model whose week
holds two keyed shifts the weekly-hours generator raises
`NotImplementedError` (from the boolean coercion of `total_hours > 0`)
instead of emitting the `<= 60` constraint the claim describes, and in
general the generator can only return an empty constraint list (when no
week/resident pair accumulates a term) or raise. -/
theorem C6_weekly_hours_generator_raises :
    mHours.weekly_hours_constraints = Except.error
      "NotImplementedError: Evaluating a BoundedLinearExpression as a Boolean value is not supported." ∧
    ∀ m : ScheduleModel, m.weekly_hours_constraints = Except.ok [] ∨
      ∃ e, m.weekly_hours_constraints = Except.error e := by
  constructor
  · rfl
  · intro m
    exact foldl_weeklyWeekStep_ok m (weeksOf m.days) []

/-- C7: the two converted legacy codes LIdw and LB11w fix durations at 5
and 9 hours for every PGY level; any other PEDS or EVAL shift lasts 10
hours regardless of level; every remaining shift lasts 12 hours at PGY-1
and 10 hours at PGY-2 and PGY-3. -/
theorem C7_duration_rules :
    convert_old_to_new_code "LIdw" = Except.ok "m-L-I-14-W" ∧
    convert_old_to_new_code "LB11w" = Except.ok "m-L-B-14-W" ∧
    (∀ (t : ShiftTemplate) (lvl : PGYLevel), t.code = "m-L-I-14-W" →
      t.duration lvl = 5) ∧
    (∀ (t : ShiftTemplate) (lvl : PGYLevel), t.code = "m-L-B-14-W" →
      t.duration lvl = 9) ∧
    (∀ (t : ShiftTemplate) (lvl : PGYLevel), t.code ≠ "m-L-I-14-W" →
      t.code ≠ "m-L-B-14-W" → (t.team = Team.peds ∨ t.team = Team.eval) →
      t.duration lvl = 10) ∧
    (∀ t : ShiftTemplate, t.code ≠ "m-L-I-14-W" → t.code ≠ "m-L-B-14-W" →
      t.team ≠ Team.peds → t.team ≠ Team.eval →
      t.duration PGYLevel.pgy1 = 12 ∧ t.duration PGYLevel.pgy2 = 10 ∧
        t.duration PGYLevel.pgy3 = 10) := by
  refine ⟨rfl, rfl, ?_, ?_, ?_, ?_⟩
  · intro t lvl h
    unfold ShiftTemplate.duration
    rw [if_pos h]
  · intro t lvl h
    unfold ShiftTemplate.duration
    rw [if_neg (by rw [h]; decide), if_pos h]
  · intro t lvl h1 h2 hteam
    unfold ShiftTemplate.duration
    rw [if_neg h1, if_neg h2]
    rcases hteam with hp | he
    · rw [if_pos hp]
    · rw [if_neg (by rw [he]; decide), if_pos he]
  · intro t h1 h2 hp he
    unfold ShiftTemplate.duration
    refine ⟨?_, ?_, ?_⟩ <;> rw [if_neg h1, if_neg h2, if_neg hp, if_neg he]
    · rw [if_pos rfl]
    · rw [if_neg (by decide : ¬ PGYLevel.pgy2 = PGYLevel.pgy1)]
    · rw [if_neg (by decide : ¬ PGYLevel.pgy3 = PGYLevel.pgy1)]

/-- Witness for C7: the sample RED template follows the default rule. -/
theorem C7_witness : tRed.duration PGYLevel.pgy1 = 12 :=
  (C7_duration_rules.2.2.2.2.2 tRed (by decide) (by decide) (by decide)
    (by decide)).1

/-- C8: `solve` returns the extracted schedule exactly on an OPTIMAL or
FEASIBLE backend status and the explicit no-solution value otherwise (it is
a total function, never an exception); with the default registry no
objective terms accumulate so `Minimize` is never invoked, and in general
`Minimize` is invoked iff some objective terms exist. -/
theorem C8_solve_contract (m : ScheduleModel) (status : SolverStatus)
    (x : Valuation) :
    ((m.solveRun m.default_objective_terms status x).result =
        some (m.extract_solution x) ↔
      (status = SolverStatus.optimal ∨ status = SolverStatus.feasible)) ∧
    ((m.solveRun m.default_objective_terms status x).result = none ↔
      ¬ (status = SolverStatus.optimal ∨ status = SolverStatus.feasible)) ∧
    (m.solveRun m.default_objective_terms status x).minimized = false ∧
    (∀ terms : List Nat,
      ((m.solveRun terms status x).minimized = true ↔ terms ≠ [])) := by
  refine ⟨?_, ?_, ?_, ?_⟩
  · unfold ScheduleModel.solveRun
    by_cases hs : status = SolverStatus.optimal ∨
        status = SolverStatus.feasible <;>
      simp [hs]
  · unfold ScheduleModel.solveRun
    by_cases hs : status = SolverStatus.optimal ∨
        status = SolverStatus.feasible <;>
      simp [hs]
  · rfl
  · intro terms
    unfold ScheduleModel.solveRun
    cases terms <;> simp

/-- Witness for C8: on a FEASIBLE status the solve contract returns the
extracted schedule of the two-resident model. -/
theorem C8_witness :
    (mTwo.solveRun mTwo.default_objective_terms SolverStatus.feasible
      xSplit).result = some (mTwo.extract_solution xSplit) :=
  (C8_solve_contract mTwo SolverStatus.feasible xSplit).1.mpr (Or.inr rfl)

/-- C9 refuted as stated: swapping two same-PGY residents permutes the
input list but the built `residents_by_pgy` grouping is not identical (its
value lists keep input order). -/
theorem C9_counterexample :
    ([bob, alice] : List Resident).Perm [alice, bob] ∧
    decide (ScheduleModel.residents_by_pgy ⟨[alice, bob], [], [], sysLW⟩
        PGYLevel.pgy1 =
      ScheduleModel.residents_by_pgy ⟨[bob, alice], [], [], sysLW⟩
        PGYLevel.pgy1) = false :=
  ⟨by decide, by decide⟩

/-- C9 (amended): permuting the input resident and shift lists yields
groupings that are equal up to order within each group (each key's list is
a permutation of the original); the key sets themselves are fixed. -/
theorem C9_order_independence_up_to_perm :
    ∀ (res res' : List Resident) (sh sh' : List Shift) (days : List Nat)
      (hsys : HospitalSystem),
      res.Perm res' → sh.Perm sh' →
      (∀ p, (ScheduleModel.residents_by_pgy ⟨res, sh, days, hsys⟩ p).Perm
        (ScheduleModel.residents_by_pgy ⟨res', sh', days, hsys⟩ p)) ∧
      (∀ d, (ScheduleModel.shifts_by_day ⟨res, sh, days, hsys⟩ d).Perm
        (ScheduleModel.shifts_by_day ⟨res', sh', days, hsys⟩ d)) ∧
      (∀ t, (ScheduleModel.shifts_by_team ⟨res, sh, days, hsys⟩ t).Perm
        (ScheduleModel.shifts_by_team ⟨res', sh', days, hsys⟩ t)) ∧
      (∀ hsp, (ScheduleModel.shifts_by_hospital ⟨res, sh, days, hsys⟩
          hsp).Perm
        (ScheduleModel.shifts_by_hospital ⟨res', sh', days, hsys⟩ hsp)) := by
  intro res res' sh sh' days hsys hres hsh
  exact ⟨fun p => hres.filter _, fun d => hsh.filter _,
    fun t => hsh.filter _, fun hsp => hsh.filter _⟩

/-- Witness for C9 (amended): the PGY-1 groups of the swapped rosters are
permutations of each other. -/
theorem C9_witness :
    (ScheduleModel.residents_by_pgy ⟨[alice, bob], [], [], sysLW⟩
        PGYLevel.pgy1).Perm
      (ScheduleModel.residents_by_pgy ⟨[bob, alice], [], [], sysLW⟩
        PGYLevel.pgy1) :=
  (C9_order_independence_up_to_perm [alice, bob] [bob, alice] [] [] []
    sysLW (by decide) (by decide)).1 PGYLevel.pgy1

/-- C10: the extracted schedule is keyed by exactly the horizon days; each
recorded `(day, shift)` entry is a single resident, namely the earliest
resident in the roster order whose existing variable solved true; shifts
with no true variable are absent; and a day with no assignment at all maps
to the empty inner dictionary. -/
theorem C10_extraction (m : ScheduleModel) (x : Valuation) :
    (∀ d : Nat, (dictLookup d (m.extract_solution x)).isSome = true ↔
      d ∈ m.days) ∧
    (∀ d ∈ m.days, dictLookup d (m.extract_solution x) =
      some (m.extract_day x d)) ∧
    (∀ (d : Nat) (s : Shift) (r : Resident),
      dictLookup s (m.extract_day x d) = some r →
      s ∈ m.shifts_by_day d ∧ r ∈ m.residents ∧ hasKey m d s r = true ∧
        x d s r = true ∧
        ∃ pre post, m.residents = pre ++ r :: post ∧
          ∀ r' ∈ pre, ¬ (hasKey m d s r' = true ∧ x d s r' = true)) ∧
    (∀ (d : Nat) (s : Shift),
      (∀ r ∈ m.residents, ¬ (hasKey m d s r = true ∧ x d s r = true)) →
      dictLookup s (m.extract_day x d) = none) ∧
    (∀ d ∈ m.days, (∀ s ∈ m.shifts_by_day d, ∀ r ∈ m.residents,
        ¬ (hasKey m d s r = true ∧ x d s r = true)) →
      dictLookup d (m.extract_solution x) = some []) := by
  have hlook : ∀ d : Nat, dictLookup d (m.extract_solution x) =
      if d ∈ m.days then some (m.extract_day x d) else none := by
    intro d
    have h := dictLookup_foldl_insert (fun d0 => m.extract_day x d0)
      m.days [] d
    rw [show dictLookup d ([] : List (Nat × List (Shift × Resident))) = none
      from rfl] at h
    exact h
  have hlookin : ∀ (d : Nat) (s : Shift),
      dictLookup s (m.extract_day x d) =
        if s ∈ m.shifts_by_day d ∧
            (m.residents.find? (fun r' =>
              hasKey m d s r' && x d s r')).isSome then
          m.residents.find? (fun r' => hasKey m d s r' && x d s r')
        else none := by
    intro d s
    have h := dictLookup_foldl_insertOpt (fun s0 =>
      m.residents.find? (fun r' => hasKey m d s0 r' && x d s0 r'))
      (m.shifts_by_day d) [] s
    rw [show dictLookup s ([] : List (Shift × Resident)) = none from rfl] at h
    exact h
  refine ⟨?_, ?_, ?_, ?_, ?_⟩
  · intro d
    rw [hlook d]
    by_cases hd : d ∈ m.days <;> simp [hd]
  · intro d hd
    rw [hlook d, if_pos hd]
  · intro d s r hr
    rw [hlookin d s] at hr
    by_cases hc : s ∈ m.shifts_by_day d ∧
        (m.residents.find? (fun r' => hasKey m d s r' && x d s r')).isSome
    · rw [if_pos hc] at hr
      obtain ⟨hpred, as, bs, heq, hprev⟩ := List.find?_eq_some.mp hr
      rw [Bool.and_eq_true] at hpred
      refine ⟨hc.1, ?_, hpred.1, hpred.2, as, bs, heq, ?_⟩
      · rw [heq]
        exact List.mem_append.mpr (Or.inr (List.mem_cons.mpr (Or.inl rfl)))
      · intro r' hr' hcontra
        have hneg := hprev r' hr'
        have hfalse : (hasKey m d s r' && x d s r') = false := by
          cases hb : (hasKey m d s r' && x d s r') with
          | false => rfl
          | true => rw [hb] at hneg; exact absurd hneg (by decide)
        rw [hcontra.1, hcontra.2] at hfalse
        simp at hfalse
    · rw [if_neg hc] at hr
      cases hr
  · intro d s hnone
    have hfnone : m.residents.find? (fun r' =>
        hasKey m d s r' && x d s r') = none := by
      rw [List.find?_eq_none]
      intro r' hr' hcontra
      rw [Bool.and_eq_true] at hcontra
      exact hnone r' hr' hcontra
    rw [hlookin d s, hfnone]
    simp
  · intro d hd hall
    have hday : m.extract_day x d = [] := by
      unfold ScheduleModel.extract_day
      refine foldl_insertOpt_of_none _ _ _ ?_
      intro s hs
      rw [List.find?_eq_none]
      intro r' hr' hcontra
      rw [Bool.and_eq_true] at hcontra
      exact hall s hs r' hr' hcontra
    rw [hlook d, if_pos hd, hday]

/-- Witness for C10: day 8 of the solved two-resident model maps to its
extracted inner dictionary. -/
theorem C10_witness :
    dictLookup 8 (mTwo.extract_solution xSplit) =
      some (mTwo.extract_day xSplit 8) :=
  (C10_extraction mTwo xSplit).2.1 8 (by decide)

end RSched
